import Mathlib

/-!
Verification development for the aidocgen pipeline (`aidoc.py`).

The development shallowly embeds the core pipeline of the program:

* the Python abstract syntax tree is embedded as the mutual inductive
  `Stmt`/`StmtList`; a statement is a function definition, a class
  definition, a bare string-literal expression statement (the docstring
  convention), or an opaque other statement that may still carry a body
  (`if`/`while`/`try` blocks can nest definitions);
* source text is embedded structurally: `Source.valid m` is a
  syntactically valid text whose parse tree is `m`, `Source.invalid` is a
  text rejected by the parser.  `ast.parse` becomes `parse`,
  `astor.to_source` becomes `Source.valid` at module level and `serStmt`
  for the code snippets stored in extracted records.  Formatting details
  of serialization are outside the model (the design itself guarantees
  nothing about bytes outside the edited region);
* the OpenAI backend is an abstract oracle `Backend : String → Option String`
  mapping a prompt to a completion, `none` modelling any raised exception
  (network, quota, malformed response);
* Python exceptions that escape the core are values of `PyError`
  (`SyntaxError` from `ast.parse`, `NameError`/`TypeError` from the class
  pass guard of `process_file`).

Definitions keep the names of the source functions: `extract`,
`extract_function`, `insert_docstring`, `delete_docstring`,
`generate_docstring`, `process_file`, and `batch_run` for the
per-directory loop of `main`.
-/

namespace AIDocGen

/-- Exceptions that can escape the embedded fragment of the program. -/
inductive PyError where
  | parseError
  | nameError
  | typeError
deriving DecidableEq, Repr

mutual
/-- A Python statement, as far as the pipeline inspects it.
`funcdefn` embeds `ast.FunctionDef` (name, positional argument names,
optional return annotation text, body), `classdefn` embeds `ast.ClassDef`,
`exprStr s` embeds `ast.Expr(ast.Str(s))` (a bare string-literal
statement, the docstring convention), and `other tag body` stands for any
other statement; its `body` keeps the nested statements of compound
statements so that definitions at any nesting depth stay visible to
`ast.walk`. -/
inductive Stmt where
  | funcdefn (name : String) (args : List String) (returns : Option String) (body : StmtList)
  | classdefn (name : String) (body : StmtList)
  | exprStr (s : String)
  | other (tag : Nat) (body : StmtList)

/-- A list of statements (a definition body or a module body).  A separate
mutual inductive rather than `List Stmt` so that recursion over the tree
is structural and computes inside the kernel. -/
inductive StmtList where
  | nil
  | cons (s : Stmt) (t : StmtList)
end

/-- A module body: what `ast.parse` returns for a valid source text. -/
abbrev Module := StmtList

/-- A source text, embedded structurally: `valid m` parses to the tree
`m`; `invalid` is text `ast.parse` rejects with a `SyntaxError`. -/
inductive Source where
  | valid (m : Module)
  | invalid

/-- `ast.parse`: yields the tree of a valid text, raises on invalid. -/
def parse : Source → Except PyError Module
  | .valid m => .ok m
  | .invalid => .error .parseError

/-- `astor.to_source` at module level: serializing a tree yields a
(valid) source text whose parse tree is that tree. -/
def to_source (m : Module) : Source := .valid m

/-- The child statements a statement contributes to `ast.walk` and to
docstring handling: its body. -/
def children : Stmt → StmtList
  | .funcdefn _ _ _ b => b
  | .classdefn _ b => b
  | .exprStr _ => .nil
  | .other _ b => b

/-- Replace the body of a statement (in-place mutation of `node.body` in
the source becomes functional update here).  A statement without a body
is returned unchanged. -/
def setChildren : Stmt → StmtList → Stmt
  | .funcdefn n a r _, b => .funcdefn n a r b
  | .classdefn n _, b => .classdefn n b
  | .exprStr s, _ => .exprStr s
  | .other g _, b => .other g b

/-- `isinstance(node, ast.FunctionDef)`. -/
def Stmt.isFuncDef : Stmt → Bool
  | .funcdefn _ _ _ _ => true
  | _ => false

/-- `isinstance(node, ast.ClassDef)`. -/
def Stmt.isClassDef : Stmt → Bool
  | .classdefn _ _ => true
  | _ => false

/-- `node.name` for definition nodes (other nodes have none; the code
only reads `name` after an `isinstance` check). -/
def Stmt.defName : Stmt → Option String
  | .funcdefn n _ _ _ => some n
  | .classdefn n _ => some n
  | _ => none

/-- View a `StmtList` as an ordinary list. -/
def StmtList.toList : StmtList → List Stmt
  | .nil => []
  | .cons s t => s :: t.toList

/-- `body[i]` (`None` past the end). -/
def nth : StmtList → Nat → Option Stmt
  | .nil, _ => none
  | .cons s _, 0 => some s
  | .cons _ t, n + 1 => nth t n

/-- Apply `f` to the `i`-th statement of a body, leaving the rest. -/
def modifyNth (f : Stmt → Stmt) : StmtList → Nat → StmtList
  | .nil, _ => .nil
  | .cons s t, 0 => .cons (f s) t
  | .cons s t, n + 1 => .cons s (modifyNth f t n)

/-- A path of child indices from the module root down to a statement:
`[i]` is the `i`-th top-level statement, `[i, j]` the `j`-th statement of
its body, and so on.  Paths model the object identity of the mutable AST
nodes of the source program: mutating a node in place becomes rebuilding
the tree along the node's path. -/
abbrev Path := List Nat

/-- The statement a (nonempty) path leads to, if any. -/
def getAt (l : StmtList) : Path → Option Stmt
  | [] => none
  | [i] => nth l i
  | i :: is => (nth l i).bind fun s => getAt (children s) is

/-- Rebuild the tree, applying `f` to the statement at the path. -/
def modifyAt (f : Stmt → Stmt) : StmtList → Path → StmtList
  | l, [] => l
  | l, [i] => modifyNth f l i
  | l, i :: is => modifyNth (fun s => setChildren s (modifyAt f (children s) is)) l i

/-- An entry of the tree walk: a path together with the statement there. -/
abbrev Entry := Path × Stmt

/-- The entries `(p ++ [k], s)`, `(p ++ [k+1], s')`, … for the successive
statements of a body hanging below path `p`. -/
def pathEntries (p : Path) : Nat → StmtList → List Entry
  | _, .nil => []
  | i, .cons s t => (p ++ [i], s) :: pathEntries p (i + 1) t

/-- The children entries of a walk entry. -/
def childEntries (e : Entry) : List Entry :=
  pathEntries e.1 0 (children e.2)

/-- `n` levels of the breadth-first walk starting from the queue `es`:
`ast.walk` maintains a FIFO queue seeded with the root's children, which
yields exactly the level-order concatenation modelled here. -/
def walkN : Nat → List Entry → List Entry
  | 0, _ => []
  | n + 1, es => es ++ walkN n (es.flatMap childEntries)

mutual
/-- Nesting depth of a statement (used to bound the number of walk
levels). -/
def stmtDepth : Stmt → Nat
  | .funcdefn _ _ _ b => 1 + listDepth b
  | .classdefn _ b => 1 + listDepth b
  | .exprStr _ => 1
  | .other _ b => 1 + listDepth b

/-- Nesting depth of a body. -/
def listDepth : StmtList → Nat
  | .nil => 0
  | .cons s t => max (stmtDepth s) (listDepth t)
end

/-- `ast.walk(tree)` with paths: all statements of the module in
breadth-first (level) order, each with its path.  The module node itself,
which `ast.walk` yields first, carries no definition and is dropped. -/
def walkEntries (m : Module) : List Entry :=
  walkN (listDepth m) (pathEntries [] 0 m)

/-- The statements of `ast.walk(tree)` in walk order. -/
def walkStmts (m : Module) : List Stmt :=
  (walkEntries m).map Prod.snd

mutual
/-- All statements of a statement's subtree, the statement included
(specification-side depth-first collector, used to quantify over the
definitions occurring anywhere in a module). -/
def allNodesS : Stmt → List Stmt
  | .funcdefn n a r b => .funcdefn n a r b :: allNodesL b
  | .classdefn n b => .classdefn n b :: allNodesL b
  | .exprStr s => [.exprStr s]
  | .other g b => .other g b :: allNodesL b

/-- All statements occurring anywhere in a body. -/
def allNodesL : StmtList → List Stmt
  | .nil => []
  | .cons s t => allNodesS s ++ allNodesL t
end

/-- Comma-separated argument list for the serializer. -/
def pyJoinArgs : List String → String
  | [] => ""
  | [a] => a
  | a :: rest => a ++ ", " ++ pyJoinArgs rest

mutual
/-- Serialization of one statement, modelling `astor.to_source(node)` for
the `code` snippets stored in extracted records and embedded into
prompts.  The exact text shape is canonical rather than byte-faithful to
astor; the pipeline only ever passes it to the opaque backend. -/
def serStmt : Stmt → String
  | .funcdefn n args ret b =>
      "def " ++ n ++ "(" ++ pyJoinArgs args ++ ")" ++
        (match ret with
          | some r => " -> " ++ r
          | none => "") ++ ": " ++ serList b ++ " end"
  | .classdefn n b => "class " ++ n ++ ": " ++ serList b ++ " end"
  | .exprStr s => "\"\"\"" ++ s ++ "\"\"\""
  | .other g b => "stmt" ++ toString g ++ ": " ++ serList b ++ " end"

/-- Serialization of a body: statements in order. -/
def serList : StmtList → String
  | .nil => ""
  | .cons s t => serStmt s ++ "; " ++ serList t
end

/-! ### `inspect.cleandoc`, as applied by `ast.get_docstring(node, clean=True)` -/

/-- `str.expandtabs()` with tab stops every 8 columns. -/
def expandTabsGo : List Char → Nat → List Char
  | [], _ => []
  | c :: cs, col =>
    if c = '\t' then
      let pad := 8 - col % 8
      List.replicate pad ' ' ++ expandTabsGo cs (col + pad)
    else if c = '\n' then
      c :: expandTabsGo cs 0
    else
      c :: expandTabsGo cs (col + 1)

/-- `str.expandtabs()`. -/
def expandTabs (s : String) : String := ⟨expandTabsGo s.data 0⟩

/-- `str.split(chr(10))` on the character level (several library string
functions are defined by well-founded recursion and do not reduce in the
kernel, so the splitting is spelled out structurally). -/
def pyLinesGo : List Char → List Char → List String
  | [], acc => [⟨acc.reverse⟩]
  | c :: cs, acc =>
    if c = '\n' then ⟨acc.reverse⟩ :: pyLinesGo cs [] else pyLinesGo cs (c :: acc)

/-- `str.split` on the newline character. -/
def pyLines (s : String) : List String := pyLinesGo s.data []

/-- `str.lstrip()`. -/
def pyLStrip (s : String) : String := ⟨s.data.dropWhile Char.isWhitespace⟩

/-- `str.strip()`. -/
def pyStrip (s : String) : String :=
  ⟨((s.data.dropWhile Char.isWhitespace).reverse.dropWhile Char.isWhitespace).reverse⟩

/-- `line[n:]` (character-based slicing). -/
def pyDrop (s : String) (n : Nat) : String := ⟨s.data.drop n⟩

/-- `chr(10).join(lines)`. -/
def pyJoinLines : List String → String
  | [] => ""
  | [l] => l
  | l :: ls => l ++ "\n" ++ pyJoinLines ls

/-- `len(line) - len(line.lstrip())`: the indentation width of a line. -/
def lineIndent (ln : String) : Nat := ln.length - (pyLStrip ln).length

/-- The common margin of the lines after the first (`none` when every
such line is blank, modelling the `sys.maxsize` sentinel). -/
def marginOf (lns : List String) : Option Nat :=
  lns.foldl
    (fun mg ln =>
      if (pyLStrip ln).length > 0 then
        some (match mg with
          | none => lineIndent ln
          | some m => min m (lineIndent ln))
      else mg)
    none

/-- `inspect.cleandoc`: expand tabs, strip the first line's leading
whitespace, remove the common margin of the remaining lines, and drop
leading and trailing blank lines. -/
def cleandoc (doc : String) : String :=
  let lns := pyLines (expandTabs doc)
  let first := pyLStrip (lns.headD "")
  let rest :=
    match marginOf lns.tail with
    | some mg => lns.tail.map (fun ln => pyDrop ln mg)
    | none => lns.tail
  let lns' := first :: rest
  let lns'' := ((lns'.reverse.dropWhile (fun ln => ln = "")).reverse).dropWhile (fun ln => ln = "")
  pyJoinLines lns''

/-- `ast.get_docstring(node)` on a definition body: the first statement,
when it is a bare string literal, cleaned with `inspect.cleandoc`;
`None` otherwise. -/
def get_docstring_of : StmtList → Option String
  | .cons (.exprStr s) _ => some (cleandoc s)
  | _ => none

/-- `ast.get_docstring(node)` on a definition node. -/
def get_docstring (node : Stmt) : Option String :=
  get_docstring_of (children node)


/-! ### Structural Model: extracted records -/

/-- `ExtractedFunction` of `aidoc.py`: name, positional argument names,
optional return annotation, optional (existing or generated) docstring,
serialized code snippet, and the two status flags. -/
structure ExtractedFunction where
  name : String
  args : List String := []
  returns : Option String := none
  docstring : Option String := none
  code : String := ""
  is_docstring_generated : Bool := false
  is_code_updated : Bool := false
deriving DecidableEq, Repr

/-- `ExtractedClass` of `aidoc.py`: name, methods of the direct class
body, optional docstring, serialized code snippet, status flags. -/
structure ExtractedClass where
  name : String
  methods : List ExtractedFunction := []
  docstring : Option String := none
  code : String := ""
  is_docstring_generated : Bool := false
  is_code_updated : Bool := false
deriving DecidableEq, Repr

/-- `extract_function(node)`: snapshot a `FunctionDef` node into an
`ExtractedFunction`.  The source only ever calls it on `FunctionDef`
nodes; on any other node the (unreachable) default record is returned. -/
def extract_function : Stmt → ExtractedFunction
  | .funcdefn n args ret b =>
      { name := n
        args := args
        returns := ret
        docstring := get_docstring_of b
        code := serStmt (.funcdefn n args ret b) }
  | s => { name := "", code := serStmt s }

/-- The `methods` loop of `extract`: the `FunctionDef` statements of the
direct class body, in order, each snapshot with `extract_function`. -/
def methodsOf : StmtList → List ExtractedFunction
  | .nil => []
  | .cons c t =>
      if c.isFuncDef then extract_function c :: methodsOf t else methodsOf t

/-- The `ExtractedClass` record `extract` builds for a `ClassDef` node. -/
def extract_class : Stmt → ExtractedClass
  | .classdefn n b =>
      { name := n
        methods := methodsOf b
        docstring := get_docstring_of b
        code := serStmt (.classdefn n b) }
  | s => { name := "", code := serStmt s }

/-- The body of `extract`'s single `for node in ast.walk(tree)` loop:
append a function record for every `FunctionDef` and a class record for
every `ClassDef`, in walk order. -/
def extractLoop : List ExtractedFunction × List ExtractedClass → List Stmt →
    List ExtractedFunction × List ExtractedClass
  | acc, [] => acc
  | (fs, cs), node :: rest =>
      extractLoop
        (if node.isFuncDef then fs ++ [extract_function node] else fs,
         if node.isClassDef then cs ++ [extract_class node] else cs)
        rest

/-- `extract` on an already parsed module. -/
def extract_m (m : Module) : List ExtractedFunction × List ExtractedClass :=
  extractLoop ([], []) (walkStmts m)

/-- `extract(source)`: parse, then walk the tree once collecting all
function and class records.  A `SyntaxError` of `ast.parse` propagates. -/
def extract (source : Source) : Except PyError (List ExtractedFunction × List ExtractedClass) :=
  match parse source with
  | .error e => .error e
  | .ok tree => .ok (extract_m tree)

/-! ### Splicer: `insert_docstring` / `delete_docstring` -/

/-- The skip test of `insert_docstring` on a matching node:
`docstring and len(docstring.strip()) > 0 and not overwrite`. -/
def skipCond (node : Stmt) (overwrite : Bool) : Bool :=
  match get_docstring node with
  | some d => d ≠ "" && (pyStrip d).length > 0 && !overwrite
  | none => false

/-- The match test of the loop in `insert_docstring`:
`(isinstance(node, ast.FunctionDef) or isinstance(node, ast.ClassDef))
and node.name == function_or_class.name`. -/
def nameMatch (node : Stmt) (name : String) : Bool :=
  (node.isFuncDef || node.isClassDef) && node.defName == some name

/-- The node the loop of `insert_docstring` ends up editing: the first
node in walk order that matches the record's name and is not skipped
(the skip branch executes `continue`, so a skipped match leaves the loop
running). -/
def findTarget (m : Module) (name : String) (overwrite : Bool) : Option Entry :=
  (walkEntries m).find? fun e => nameMatch e.2 name && !skipCond e.2 overwrite

/-- `delete_docstring(node)` on the node's body: `node.body.pop(0)` runs
only when `ast.get_docstring(node)` is truthy, so an empty (or
whitespace-only, hence cleaned-to-empty) docstring is not removed. -/
def delete_docstring_body (b : StmtList) : StmtList :=
  match get_docstring_of b with
  | some d => if d ≠ "" then
      match b with
      | .nil => .nil
      | .cons _ t => t
    else b
  | none => b

/-- `delete_docstring(node)` followed by
`node.body.insert(0, ast.Expr(ast.Str(docstring)))`. -/
def spliceNode (docstring : String) (node : Stmt) : Stmt :=
  setChildren node (.cons (.exprStr docstring) (delete_docstring_body (children node)))

/-- `insert_docstring` on a parsed module: walk to the first matching,
non-skipped definition, delete its existing docstring, insert the new
one as the first body statement (then `break`).  When every match is
skipped, the loop falls through and the unchanged tree is serialized. -/
def insert_docstring_m (m : Module) (name docstring : String) (overwrite : Bool) : Module :=
  match findTarget m name overwrite with
  | some (p, _) => modifyAt (spliceNode docstring) m p
  | none => m

/-- `insert_docstring(source, function_or_class, overwrite)`: re-parse the
running source, edit the tree, serialize it back.  `name` and
`docstring` are the two record fields the function reads. -/
def insert_docstring (source : Source) (name docstring : String) (overwrite : Bool) :
    Except PyError Source :=
  match parse source with
  | .error e => .error e
  | .ok tree => .ok (to_source (insert_docstring_m tree name docstring overwrite))

/-! ### Synthesizer: `generate_docstring` -/

/-- The external text-generation backend: a prompt either yields a
completion string or fails (`none` models any exception the
`openai.Completion.create` call can raise). -/
def Backend := String → Option String

/-- The prompt template of `generate_docstring` (quotes of the original
template text elided; the pipeline never inspects the prompt). -/
def prompt_for (object_type code_snippet : String) : String :=
  if object_type == "class" then
    "# Python 3.7\n \n" ++ code_snippet ++
      "\n\n# write a concise, high-quality docstring for the above " ++ object_type ++
      " in Google style.  It must only have a one liner about the " ++ object_type ++
      ":\n\"\"\""
  else
    "# Python 3.7\n \n" ++ code_snippet ++
      "\n\n# write a concise, high-quality docstring for the above " ++ object_type ++
      " in Google style.  It must have one liner about the " ++ object_type ++
      ", Args and Returns (only if it is a function/method):\n\"\"\""

/-- `generate_docstring(code_snippet, object_type)`: one backend request;
on success the completion text with `True`, on any failure `("", False)`
(the `except` clause swallows every exception). -/
def generate_docstring (backend : Backend) (code_snippet object_type : String) :
    String × Bool :=
  match backend (prompt_for object_type code_snippet) with
  | some text => (text, true)
  | none => ("", false)

/-! ### Pipeline Driver: `process_file` and the batch loop of `main` -/

/-- The running state of the function pass of `process_file`: the current
source text, the loop variable `function` as left by the last iteration
(`none` before the first iteration, i.e. the name is still unbound), and
a ghost log of every record handed to `generate_docstring`. -/
structure FuncPassState where
  source : Source
  lastFn : Option ExtractedFunction := none
  genLog : List ExtractedFunction := []

/-- One iteration of the function pass: skip `__init__` records
(`continue` still leaves the loop variable bound to the record),
otherwise synthesize, update the record's `docstring` and
`is_docstring_generated` fields, and splice when generation succeeded
with a non-empty docstring. -/
def funcStep (backend : Backend) (overwrite : Bool) (st : FuncPassState)
    (f : ExtractedFunction) : Except PyError FuncPassState :=
  if f.name == "__init__" then
    .ok { st with lastFn := some f }
  else
    let gen := generate_docstring backend f.code "function"
    let f' := { f with docstring := some gen.1, is_docstring_generated := gen.2 }
    if f'.is_docstring_generated && gen.1.length > 0 then
      match insert_docstring st.source f'.name gen.1 overwrite with
      | .error e => .error e
      | .ok src' => .ok { source := src', lastFn := some f', genLog := st.genLog ++ [f] }
    else
      .ok { st with lastFn := some f', genLog := st.genLog ++ [f] }

/-- One iteration of the class pass: synthesize for the class, then guard
the splice with `class_.is_docstring_generated and
len(function.docstring) > 0` — the second conjunct reads the *function
loop's* variable: unbound when the file had no function records
(`NameError`), and `len(None)` when the last function record was an
un-synthesized `__init__` without an existing docstring (`TypeError`).
Python's `and` short-circuits, so neither error can fire when generation
failed for the class. -/
def classStep (backend : Backend) (overwrite : Bool)
    (lastFn : Option ExtractedFunction) (source : Source)
    (c : ExtractedClass) : Except PyError Source :=
  let gen := generate_docstring backend c.code "class"
  let c' := { c with docstring := some gen.1, is_docstring_generated := gen.2 }
  if c'.is_docstring_generated then
    match lastFn with
    | none => .error .nameError
    | some f =>
      match f.docstring with
      | none => .error .typeError
      | some fd =>
        if fd.length > 0 then
          insert_docstring source c'.name gen.1 overwrite
        else
          .ok source
  else
    .ok source

/-- `process_file` (its in-memory core: file reads/writes, the black
formatter and PR creation are external).  Extract once from the original
text, run the function pass threading the running source, then the class
pass.  Returns the final source text, or the Python exception that
escaped. -/
def process_file (backend : Backend) (overwrite : Bool) (source : Source) :
    Except PyError Source :=
  match extract source with
  | .error e => .error e
  | .ok (functions, classes) =>
    match functions.foldlM (funcStep backend overwrite) { source := source } with
    | .error e => .error e
    | .ok st => classes.foldlM (classStep backend overwrite st.lastFn) st.source

/-- The per-directory loop of `main`: process the files in order.  There
is no `try`/`except` around `process_file`, so the first escaping
exception stops the loop; files already processed keep their written
results.  Returns the written outputs in order and the stopping error,
if any. -/
def batch_run (backend : Backend) (overwrite : Bool) :
    List Source → List Source × Option PyError
  | [] => ([], none)
  | f :: rest =>
    match process_file backend overwrite f with
    | .ok s' =>
        let (ws, e) := batch_run backend overwrite rest
        (s' :: ws, e)
    | .error e => ([], some e)

/-- A canonical textual image of a source text, used to separate
structurally different sources. -/
def srcRepr : Source → String
  | .valid m => serList m
  | .invalid => "<SyntaxError>"

/-- The statement a path leads to inside a statement's subtree (the
statement itself for the empty path). -/
def subAt : Stmt → Path → Option Stmt
  | s, [] => some s
  | s, i :: is => (nth (children s) i).bind fun c => subAt c is

/-! ### Concrete example programs and backends used in the claim analysis -/

/-- `def f(): pass` -/
def exF : Stmt := .funcdefn "f" [] none (.cons (.other 0 .nil) .nil)

/-- `class C: pass` -/
def exC : Stmt := .classdefn "C" (.cons (.other 1 .nil) .nil)

/-- A file with one function `f` and one class `C`. -/
def exM1 : Module := .cons exF (.cons exC .nil)

/-- A backend that fails for every prompt except the class prompt of
`C`, which yields the summary `"cdoc"`. -/
def backendC1 : Backend := fun p =>
  if p = prompt_for "class" (serStmt exC) then some "cdoc" else none

/-- `C` with the docstring `"cdoc"` spliced in. -/
def exCdoc : Stmt := .classdefn "C" (.cons (.exprStr "cdoc") (.cons (.other 1 .nil) .nil))

/-- `exM1` with `C` documented. -/
def exM1C : Module := .cons exF (.cons exCdoc .nil)

/-- A file containing only the class `C`. -/
def exMClassOnly : Module := .cons exC .nil

/-- `def __init__(self): pass` -/
def exInit : Stmt := .funcdefn "__init__" ["self"] none (.cons (.other 2 .nil) .nil)

/-- `class D:` with only an `__init__` method. -/
def exCInit : Stmt := .classdefn "D" (.cons exInit .nil)

/-- A file whose only function definition is a constructor. -/
def exMInitOnly : Module := .cons exCInit .nil

/-- `C` with an empty-string docstring spliced in. -/
def exCEmpty : Stmt := .classdefn "C" (.cons (.exprStr "") (.cons (.other 1 .nil) .nil))

/-- A backend with fixed results: the class prompts of `C` (before and
after the first run) yield the empty summary with success, every other
prompt yields `"fdoc"`. -/
def backendC3 : Backend := fun p =>
  if p = prompt_for "class" (serStmt exC) then some ""
  else if p = prompt_for "class" (serStmt exCEmpty) then some ""
  else some "fdoc"

/-- `f` with the docstring `"fdoc"` spliced in. -/
def exFDoc : Stmt := .funcdefn "f" [] none (.cons (.exprStr "fdoc") (.cons (.other 0 .nil) .nil))

/-- The output of the first pipeline run on `exM1` under `backendC3`. -/
def exS1 : Module := .cons exFDoc (.cons exCEmpty .nil)

/-- `C` with two empty-string docstrings stacked by the second run. -/
def exCEmpty2 : Stmt :=
  .classdefn "C" (.cons (.exprStr "") (.cons (.exprStr "") (.cons (.other 1 .nil) .nil)))

/-- The output of the second pipeline run on `exS1` under `backendC3`. -/
def exS2 : Module := .cons exFDoc (.cons exCEmpty2 .nil)

/-- A documented `def f(): ...` (docstring `"already documented"`). -/
def exFdup1 : Stmt :=
  .funcdefn "f" [] none (.cons (.exprStr "already documented") (.cons (.other 0 .nil) .nil))

/-- A second, undocumented `def f(): ...` with the same name. -/
def exFdup2 : Stmt := .funcdefn "f" [] none (.cons (.other 1 .nil) .nil)

/-- A file with two same-named functions, the first documented. -/
def exMdup : Module := .cons exFdup1 (.cons exFdup2 .nil)

/-- The second `f` after a docstring `"newdoc"` is inserted into it. -/
def exFdup2' : Stmt :=
  .funcdefn "f" [] none (.cons (.exprStr "newdoc") (.cons (.other 1 .nil) .nil))

/-- `exMdup` after the splice: the second `f` got the docstring. -/
def exMdup' : Module := .cons exFdup1 (.cons exFdup2' .nil)

/-- A file with a single, already documented `f`. -/
def exMSingle : Module := .cons exFdup1 .nil

/-- `def f():` whose existing docstring is the empty string literal. -/
def exFEmptyDoc : Stmt :=
  .funcdefn "f" [] none (.cons (.exprStr "") (.cons (.other 0 .nil) .nil))

/-- A file containing only `exFEmptyDoc`. -/
def exMEmpty : Module := .cons exFEmptyDoc .nil

/-! ## Lemmas about the tree editing primitives -/

/-- Induction over a `StmtList` alone (the `induction` tactic cannot use
the mutual recursor directly). -/
theorem StmtList.inductionOn {motive : StmtList → Prop} (l : StmtList)
    (nil : motive .nil)
    (cons : ∀ s t, motive t → motive (.cons s t)) : motive l :=
  @StmtList.rec (fun _ => True) motive
    (fun _ _ _ _ _ => trivial) (fun _ _ _ => trivial) (fun _ => trivial) (fun _ _ _ => trivial)
    nil (fun s t _ ht => cons s t ht) l

/-- Simultaneous induction over statements and statement lists. -/
theorem Stmt.mutualInd {motive1 : Stmt → Prop} {motive2 : StmtList → Prop}
    (hfunc : ∀ n a r b, motive2 b → motive1 (.funcdefn n a r b))
    (hclass : ∀ n b, motive2 b → motive1 (.classdefn n b))
    (hexpr : ∀ s, motive1 (.exprStr s))
    (hother : ∀ g b, motive2 b → motive1 (.other g b))
    (hnil : motive2 .nil)
    (hcons : ∀ s t, motive1 s → motive2 t → motive2 (.cons s t)) :
    (∀ s, motive1 s) ∧ (∀ l, motive2 l) :=
  ⟨fun s => @Stmt.rec motive1 motive2 hfunc hclass hexpr hother hnil hcons s,
   fun l => @StmtList.rec motive1 motive2 hfunc hclass hexpr hother hnil hcons l⟩

theorem getAt_nil_path (l : StmtList) : getAt l [] = none := rfl

theorem getAt_single (l : StmtList) (i : Nat) : getAt l [i] = nth l i := rfl

theorem getAt_cons_cons (l : StmtList) (i j : Nat) (is : Path) :
    getAt l (i :: j :: is) = (nth l i).bind fun s => getAt (children s) (j :: is) := rfl

theorem modifyAt_nil_path (f : Stmt → Stmt) (l : StmtList) : modifyAt f l [] = l := rfl

theorem modifyAt_single (f : Stmt → Stmt) (l : StmtList) (i : Nat) :
    modifyAt f l [i] = modifyNth f l i := rfl

theorem modifyAt_cons_cons (f : Stmt → Stmt) (l : StmtList) (i j : Nat) (is : Path) :
    modifyAt f l (i :: j :: is) =
      modifyNth (fun s => setChildren s (modifyAt f (children s) (j :: is))) l i := rfl

theorem nth_modifyNth_self (f : Stmt → Stmt) (l : StmtList) (i : Nat) :
    nth (modifyNth f l i) i = (nth l i).map f := by
  induction l using StmtList.inductionOn generalizing i with
  | nil => simp [modifyNth, nth]
  | cons s t ih =>
    cases i with
    | zero => simp [modifyNth, nth]
    | succ n => simpa [modifyNth, nth] using ih n

theorem nth_modifyNth_ne (f : Stmt → Stmt) (l : StmtList) (i j : Nat) (h : i ≠ j) :
    nth (modifyNth f l i) j = nth l j := by
  induction l using StmtList.inductionOn generalizing i j with
  | nil => simp [modifyNth]
  | cons s t ih =>
    cases i with
    | zero =>
      cases j with
      | zero => exact absurd rfl h
      | succ n => simp [modifyNth, nth]
    | succ m =>
      cases j with
      | zero => simp [modifyNth, nth]
      | succ n => simpa [modifyNth, nth] using ih m n (by omega)

theorem modifyAt_nil (f : Stmt → Stmt) (p : Path) : modifyAt f .nil p = .nil := by
  match p with
  | [] => rfl
  | [i] => rw [modifyAt_single]; cases i <;> rfl
  | i :: j :: is => rw [modifyAt_cons_cons]; cases i <;> rfl

theorem children_setChildren_modifyAt (f : Stmt → Stmt) (s : Stmt) (q : Path) :
    children (setChildren s (modifyAt f (children s) q)) = modifyAt f (children s) q := by
  cases s with
  | funcdefn n a r b => rfl
  | classdefn n b => rfl
  | exprStr t => show StmtList.nil = modifyAt f .nil q; rw [modifyAt_nil]
  | other g b => rfl

theorem getAt_modifyAt_incomparable (f : Stmt → Stmt) :
    ∀ (p : Path) (l : StmtList) (q : Path), ¬ p <+: q → ¬ q <+: p →
      getAt (modifyAt f l p) q = getAt l q := by
  intro p
  induction p with
  | nil => intro l q hpq _; exact absurd List.nil_prefix hpq
  | cons i is ih =>
    intro l q hpq hqp
    cases is with
    | nil =>
      cases q with
      | nil => simp [getAt_nil_path]
      | cons j js =>
        have hij : i ≠ j := by
          rintro rfl
          cases js with
          | nil => exact hpq (List.prefix_refl _)
          | cons k ks => exact hpq ⟨k :: ks, rfl⟩
        cases js with
        | nil => rw [getAt_single, getAt_single, modifyAt_single, nth_modifyNth_ne _ l i j hij]
        | cons k ks =>
          rw [getAt_cons_cons, getAt_cons_cons, modifyAt_single, nth_modifyNth_ne _ l i j hij]
    | cons i2 is2 =>
      cases q with
      | nil => simp [getAt_nil_path]
      | cons j js =>
        by_cases hij : i = j
        · subst hij
          cases js with
          | nil =>
            exact absurd ⟨i2 :: is2, rfl⟩ hqp
          | cons k ks =>
            have h1 : ¬ (i2 :: is2) <+: (k :: ks) := fun h =>
              hpq (List.cons_prefix_cons.mpr ⟨rfl, h⟩)
            have h2 : ¬ (k :: ks) <+: (i2 :: is2) := fun h =>
              hqp (List.cons_prefix_cons.mpr ⟨rfl, h⟩)
            rw [getAt_cons_cons, getAt_cons_cons, modifyAt_cons_cons, nth_modifyNth_self]
            cases hn : nth l i with
            | none => rfl
            | some s =>
              simp only [Option.map_some', Option.bind_some, Option.some_bind]
              rw [children_setChildren_modifyAt]
              exact ih (children s) (k :: ks) h1 h2
        · cases js with
          | nil =>
            rw [getAt_single, getAt_single, modifyAt_cons_cons, nth_modifyNth_ne _ l i j hij]
          | cons k ks =>
            rw [getAt_cons_cons, getAt_cons_cons, modifyAt_cons_cons,
              nth_modifyNth_ne _ l i j hij]

theorem getAt_modifyAt_self (f : Stmt → Stmt) :
    ∀ (p : Path) (l : StmtList) (s : Stmt), getAt l p = some s →
      getAt (modifyAt f l p) p = some (f s) := by
  intro p
  induction p with
  | nil => intro l s h; rw [getAt_nil_path] at h; exact absurd h (by simp)
  | cons i is ih =>
    intro l s h
    cases is with
    | nil =>
      rw [getAt_single] at h
      rw [getAt_single, modifyAt_single, nth_modifyNth_self, h]
      rfl
    | cons i2 is2 =>
      rw [getAt_cons_cons] at h
      cases hn : nth l i with
      | none => rw [hn] at h; exact absurd h (by simp)
      | some u =>
        rw [hn] at h
        simp only [Option.some_bind] at h
        rw [getAt_cons_cons, modifyAt_cons_cons, nth_modifyNth_self, hn]
        simp only [Option.map_some', Option.some_bind]
        rw [children_setChildren_modifyAt]
        exact ih (children u) s h


/-! ## Lemmas about the breadth-first walk -/

theorem mem_pathEntries :
    ∀ (l : StmtList) (p : Path) (k : Nat) (q : Path) (t : Stmt),
      ((q, t) ∈ pathEntries p k l) ↔ ∃ i, q = p ++ [k + i] ∧ nth l i = some t := by
  intro l
  induction l using StmtList.inductionOn with
  | nil => intro p k q t; simp [pathEntries, nth]
  | cons s tl ih =>
    intro p k q t
    simp only [pathEntries, List.mem_cons, Prod.mk.injEq, ih]
    constructor
    · rintro (⟨rfl, rfl⟩ | ⟨i, rfl, hi⟩)
      · exact ⟨0, by simp, rfl⟩
      · exact ⟨i + 1, by rw [show k + (i + 1) = k + 1 + i from by omega], hi⟩
    · rintro ⟨i, rfl, hi⟩
      cases i with
      | zero =>
        left
        have : s = t := by simpa [nth] using hi
        exact ⟨by simp, this.symm⟩
      | succ i' =>
        right
        exact ⟨i', by rw [show k + 1 + i' = k + (i' + 1) from by omega], by simpa [nth] using hi⟩

theorem getAt_cons_of_ne_nil (l : StmtList) (j : Nat) (q : Path) (hq : q ≠ []) :
    getAt l (j :: q) = (nth l j).bind fun s => getAt (children s) q := by
  cases q with
  | nil => exact absurd rfl hq
  | cons a q' => exact getAt_cons_cons l j a q'

theorem getAt_append_singleton (m : Module) :
    ∀ (p : Path), p ≠ [] → ∀ (i : Nat),
      getAt m (p ++ [i]) = (getAt m p).bind fun s => nth (children s) i := by
  intro p
  induction p generalizing m with
  | nil => intro h; exact absurd rfl h
  | cons j p' ih =>
    intro _ i
    cases hp' : p' with
    | nil =>
      show getAt m (j :: [i]) = (getAt m [j]).bind fun s => nth (children s) i
      rw [getAt_cons_cons, getAt_single]
      cases hn : nth m j <;> simp [getAt_single]
    | cons a p'' =>
      subst hp'
      show getAt m (j :: ((a :: p'') ++ [i])) = _
      rw [getAt_cons_of_ne_nil m j ((a :: p'') ++ [i]) (by simp),
        getAt_cons_of_ne_nil m j (a :: p'') (by simp)]
      cases hn : nth m j with
      | none => simp
      | some v =>
        simp only [Option.some_bind]
        exact ih (children v) (by simp) i

theorem childEntries_valid (m : Module) (e : Entry)
    (he : e.1 ≠ [] ∧ getAt m e.1 = some e.2) :
    ∀ e' ∈ childEntries e, e'.1 ≠ [] ∧ getAt m e'.1 = some e'.2 := by
  rintro ⟨q, t⟩ h
  rw [childEntries, mem_pathEntries] at h
  obtain ⟨i, rfl, hi⟩ := h
  refine ⟨by simp, ?_⟩
  rw [getAt_append_singleton m e.1 he.1, he.2]
  simpa using hi

theorem walkN_valid (m : Module) :
    ∀ (n : Nat) (es : List Entry),
      (∀ e ∈ es, e.1 ≠ [] ∧ getAt m e.1 = some e.2) →
      ∀ e ∈ walkN n es, e.1 ≠ [] ∧ getAt m e.1 = some e.2 := by
  intro n
  induction n with
  | zero => intro es _ e he; simp [walkN] at he
  | succ n ih =>
    intro es hes e he
    rw [walkN] at he
    rcases List.mem_append.mp he with h | h
    · exact hes e h
    · refine ih _ ?_ e h
      intro e' he'
      obtain ⟨e0, he0, hc⟩ := List.mem_flatMap.mp he'
      exact childEntries_valid m e0 (hes e0 he0) e' hc

theorem walkEntries_valid (m : Module) :
    ∀ e ∈ walkEntries m, e.1 ≠ [] ∧ getAt m e.1 = some e.2 := by
  intro e he
  refine walkN_valid m (listDepth m) _ ?_ e he
  rintro ⟨q, t⟩ hq
  rw [mem_pathEntries] at hq
  obtain ⟨i, rfl, hi⟩ := hq
  exact ⟨by simp, by simpa [getAt_single] using hi⟩

theorem getAt_cons_eq_subAt :
    ∀ (is : Path) (l : StmtList) (i : Nat),
      getAt l (i :: is) = (nth l i).bind fun s => subAt s is := by
  intro is
  induction is with
  | nil => intro l i; rw [getAt_single]; cases hn : nth l i <;> simp [hn, subAt]
  | cons j js ih =>
    intro l i
    rw [getAt_cons_cons]
    cases hn : nth l i <;> simp [hn, subAt, ih]

theorem stmtDepth_pos (s : Stmt) : 1 ≤ stmtDepth s := by
  cases s <;> simp [stmtDepth]

theorem nth_depth_le (l : StmtList) :
    ∀ (i : Nat) (s : Stmt), nth l i = some s → stmtDepth s ≤ listDepth l := by
  induction l using StmtList.inductionOn with
  | nil => intro i s h; simp [nth] at h
  | cons a t ih =>
    intro i s h
    cases i with
    | zero =>
      have : a = s := by simpa [nth] using h
      subst this
      simp [listDepth]
    | succ n =>
      have h1 := ih n s (by simpa [nth] using h)
      have h2 : listDepth t ≤ listDepth (.cons a t) := by simp [listDepth]
      omega

theorem depth_lt_of_nth_children (s : Stmt) (i : Nat) (c : Stmt)
    (h : nth (children s) i = some c) : stmtDepth c < stmtDepth s := by
  have h1 : stmtDepth c ≤ listDepth (children s) := nth_depth_le _ i c h
  cases s with
  | funcdefn n a r b => simp [children] at h1; simp [stmtDepth]; omega
  | classdefn n b => simp [children] at h1; simp [stmtDepth]; omega
  | exprStr t => simp [children, nth] at h
  | other g b => simp [children] at h1; simp [stmtDepth]; omega

theorem walkN_complete :
    ∀ (n : Nat) (es : List Entry), (∀ e ∈ es, stmtDepth e.2 ≤ n) →
      ∀ e ∈ es, ∀ (q : Path) (t : Stmt), subAt e.2 q = some t →
        (e.1 ++ q, t) ∈ walkN n es := by
  intro n
  induction n with
  | zero =>
    intro es hd e he q t _
    have := stmtDepth_pos e.2
    have := hd e he
    omega
  | succ n ih =>
    intro es hd e he q t hsub
    rw [walkN]
    cases q with
    | nil =>
      have : e.2 = t := by simpa [subAt] using hsub
      subst this
      exact List.mem_append_left _ (by simpa using he)
    | cons i is =>
      rw [subAt] at hsub
      obtain ⟨c, hc, hrest⟩ := Option.bind_eq_some.mp hsub
      have hchild : ((e.1 ++ [i]), c) ∈ childEntries e := by
        rw [childEntries, mem_pathEntries]
        exact ⟨i, by simp, hc⟩
      have hmem : ((e.1 ++ [i]), c) ∈ es.flatMap childEntries :=
        List.mem_flatMap.mpr ⟨e, he, hchild⟩
      have hd' : ∀ e' ∈ es.flatMap childEntries, stmtDepth e'.2 ≤ n := by
        rintro ⟨q', t'⟩ he'
        obtain ⟨e0, he0, hce⟩ := List.mem_flatMap.mp he'
        rw [childEntries, mem_pathEntries] at hce
        obtain ⟨i', _, ht'⟩ := hce
        have hlt := depth_lt_of_nth_children e0.2 i' t' ht'
        have hle := hd e0 he0
        show stmtDepth t' ≤ n
        omega
      have hfin := ih (es.flatMap childEntries) hd' _ hmem is t hrest
      rw [show (e.1 ++ [i]) ++ is = e.1 ++ (i :: is) from by simp] at hfin
      exact List.mem_append_right _ hfin

theorem walkEntries_complete (m : Module) (p : Path) (s : Stmt)
    (h : getAt m p = some s) : (p, s) ∈ walkEntries m := by
  cases p with
  | nil => rw [getAt_nil_path] at h; exact absurd h (by simp)
  | cons i is =>
    rw [getAt_cons_eq_subAt] at h
    obtain ⟨c, hc, hsub⟩ := Option.bind_eq_some.mp h
    have hinit : (([i] : Path), c) ∈ pathEntries [] 0 m := by
      rw [mem_pathEntries]
      exact ⟨i, by simp, hc⟩
    have hd : ∀ e ∈ pathEntries ([] : Path) 0 m, stmtDepth e.2 ≤ listDepth m := by
      rintro ⟨q, t⟩ he
      rw [mem_pathEntries] at he
      obtain ⟨i', _, ht⟩ := he
      exact nth_depth_le m i' t ht
    have hfin := walkN_complete (listDepth m) _ hd _ hinit is s hsub
    simpa [walkEntries] using hfin

/-! ## Lemmas about the depth-first node collector -/

theorem self_mem_allNodesS (s : Stmt) : s ∈ allNodesS s := by
  cases s <;> simp [allNodesS]

theorem mem_allNodesL_of_nth (l : StmtList) :
    ∀ (i : Nat) (c : Stmt), nth l i = some c →
      ∀ x ∈ allNodesS c, x ∈ allNodesL l := by
  induction l using StmtList.inductionOn with
  | nil => intro i c h; simp [nth] at h
  | cons a t ih =>
    intro i c h x hx
    cases i with
    | zero =>
      have : a = c := by simpa [nth] using h
      subst this
      exact List.mem_append_left _ hx
    | succ n =>
      exact List.mem_append_right _ (ih n c (by simpa [nth] using h) x hx)

theorem allNodesL_children_subset (s : Stmt) :
    ∀ x ∈ allNodesL (children s), x ∈ allNodesS s := by
  intro x hx
  cases s with
  | funcdefn n a r b => exact List.mem_cons_of_mem _ (by simpa [children] using hx)
  | classdefn n b => exact List.mem_cons_of_mem _ (by simpa [children] using hx)
  | exprStr t => simp [children, allNodesL] at hx
  | other g b => exact List.mem_cons_of_mem _ (by simpa [children] using hx)

theorem subAt_mem_allNodesS :
    ∀ (q : Path) (c t : Stmt), subAt c q = some t → t ∈ allNodesS c := by
  intro q
  induction q with
  | nil =>
    intro c t h
    have : c = t := by simpa [subAt] using h
    subst this
    exact self_mem_allNodesS c
  | cons i is ih =>
    intro c t h
    rw [subAt] at h
    obtain ⟨u, hu, hrest⟩ := Option.bind_eq_some.mp h
    exact allNodesL_children_subset c t (mem_allNodesL_of_nth _ i u hu t (ih u t hrest))

theorem mem_allNodesL_of_getAt (m : Module) (p : Path) (s : Stmt)
    (h : getAt m p = some s) : s ∈ allNodesL m := by
  cases p with
  | nil => rw [getAt_nil_path] at h; exact absurd h (by simp)
  | cons i is =>
    rw [getAt_cons_eq_subAt] at h
    obtain ⟨c, hc, hsub⟩ := Option.bind_eq_some.mp h
    exact mem_allNodesL_of_nth m i c hc s (subAt_mem_allNodesS is c s hsub)

/-! ## A decomposition lemma for `List.find?` -/

theorem find?_split {α : Type} (f : α → Bool) :
    ∀ (l : List α) (a : α), l.find? f = some a →
      f a = true ∧ ∃ l1 l2, l = l1 ++ a :: l2 ∧ ∀ b ∈ l1, f b = false := by
  intro l
  induction l with
  | nil => intro a h; simp [List.find?] at h
  | cons x xs ih =>
    intro a h
    by_cases hx : f x = true
    · rw [List.find?_cons_of_pos _ hx] at h
      have : x = a := by injection h
      subst this
      exact ⟨hx, [], xs, rfl, by simp⟩
    · have hx' : f x = false := by simpa using hx
      rw [List.find?_cons_of_neg _ (by simp [hx'])] at h
      obtain ⟨hfa, l1, l2, rfl, hl1⟩ := ih a h
      refine ⟨hfa, x :: l1, l2, rfl, ?_⟩
      intro b hb
      rcases List.mem_cons.mp hb with rfl | hb
      · exact hx'
      · exact hl1 b hb

/-! ## Lemmas about the extractor -/

theorem extractLoop_eq :
    ∀ (ns : List Stmt) (fs : List ExtractedFunction) (cs : List ExtractedClass),
      extractLoop (fs, cs) ns =
        (fs ++ (ns.filter Stmt.isFuncDef).map extract_function,
         cs ++ (ns.filter Stmt.isClassDef).map extract_class) := by
  intro ns
  induction ns with
  | nil => intro fs cs; simp [extractLoop]
  | cons node rest ih =>
    intro fs cs
    rw [extractLoop, ih]
    by_cases hf : node.isFuncDef <;> by_cases hc : node.isClassDef <;>
      simp [hf, hc, List.filter_cons]

theorem extract_m_eq (m : Module) :
    extract_m m =
      (((walkStmts m).filter Stmt.isFuncDef).map extract_function,
       ((walkStmts m).filter Stmt.isClassDef).map extract_class) := by
  rw [extract_m, extractLoop_eq]
  simp

theorem methodsOf_eq (b : StmtList) :
    methodsOf b = (b.toList.filter Stmt.isFuncDef).map extract_function := by
  induction b using StmtList.inductionOn with
  | nil => simp [methodsOf, StmtList.toList]
  | cons s t ih =>
    by_cases hf : s.isFuncDef <;> simp [methodsOf, StmtList.toList, List.filter_cons, hf, ih]

/-! ## Lemmas about the splicer -/

theorem insert_docstring_m_of_none (m : Module) (name doc : String) (ov : Bool)
    (h : findTarget m name ov = none) :
    insert_docstring_m m name doc ov = m := by
  simp [insert_docstring_m, h]

theorem findTarget_none_of_all_skip (m : Module) (name : String) (ov : Bool)
    (hall : ∀ s ∈ allNodesL m, nameMatch s name = true → skipCond s ov = true) :
    findTarget m name ov = none := by
  rw [findTarget, List.find?_eq_none]
  rintro ⟨p, s⟩ hmem hb
  have hv := walkEntries_valid m _ hmem
  have hs := mem_allNodesL_of_getAt m p s hv.2
  rw [Bool.and_eq_true] at hb
  have hskip := hall s hs hb.1
  rw [hskip] at hb
  simp at hb

/-! ## Lemmas about the driver passes -/

theorem except_bind_ok {ε α β : Type} (a : α) (f : α → Except ε β) :
    (Except.ok a >>= f : Except ε β) = f a := rfl

theorem except_bind_err {ε α β : Type} (e : ε) (f : α → Except ε β) :
    (Except.error e >>= f : Except ε β) = .error e := rfl

theorem generate_docstring_fail (backend : Backend) (code ot : String)
    (h : backend (prompt_for ot code) = none) :
    generate_docstring backend code ot = ("", false) := by
  simp [generate_docstring, h]

theorem funcStep_init (backend : Backend) (ov : Bool) (st : FuncPassState)
    (f : ExtractedFunction) (h : (f.name == "__init__") = true) :
    funcStep backend ov st f = .ok { st with lastFn := some f } := by
  simp [funcStep, h]

theorem funcStep_genfail (backend : Backend) (ov : Bool) (st : FuncPassState)
    (f : ExtractedFunction) (hinit : (f.name == "__init__") = false)
    (h : backend (prompt_for "function" f.code) = none) :
    funcStep backend ov st f =
      .ok { source := st.source,
            lastFn := some { f with docstring := some "", is_docstring_generated := false },
            genLog := st.genLog ++ [f] } := by
  simp [funcStep, hinit, generate_docstring, h]

theorem classStep_genfail (backend : Backend) (ov : Bool)
    (lf : Option ExtractedFunction) (src : Source) (c : ExtractedClass)
    (h : backend (prompt_for "class" c.code) = none) :
    classStep backend ov lf src c = .ok src := by
  simp [classStep, generate_docstring, h]

theorem funcStep_genLog (backend : Backend) (ov : Bool) (st : FuncPassState)
    (f : ExtractedFunction) (st' : FuncPassState)
    (hinit : (f.name == "__init__") = false)
    (h : funcStep backend ov st f = .ok st') :
    st'.genLog = st.genLog ++ [f] := by
  rw [funcStep] at h
  rw [hinit] at h
  simp only [Bool.false_eq_true, if_false] at h
  by_cases hg : ({ f with
      docstring := some (generate_docstring backend f.code "function").1,
      is_docstring_generated := (generate_docstring backend f.code "function").2
    } : ExtractedFunction).is_docstring_generated
      && (generate_docstring backend f.code "function").1.length > 0
  · rw [if_pos hg] at h
    cases hins : insert_docstring st.source _ _ ov with
    | error e => rw [hins] at h; exact absurd h (by simp)
    | ok src' =>
      rw [hins] at h
      have := Except.ok.inj h
      rw [← this]
  · rw [if_neg hg] at h
    have := Except.ok.inj h
    rw [← this]

theorem funcFold_allfail (backend : Backend) (ov : Bool)
    (hb : ∀ p, backend p = none) :
    ∀ (fs : List ExtractedFunction) (st : FuncPassState),
      ∃ lf lg, List.foldlM (funcStep backend ov) st fs = .ok ⟨st.source, lf, lg⟩ := by
  intro fs
  induction fs with
  | nil => intro st; exact ⟨st.lastFn, st.genLog, rfl⟩
  | cons f rest ih =>
    intro st
    by_cases hi : (f.name == "__init__") = true
    · rw [List.foldlM_cons, funcStep_init backend ov st f hi, except_bind_ok]
      obtain ⟨lf, lg, hrec⟩ := ih { st with lastFn := some f }
      exact ⟨lf, lg, hrec⟩
    · have hi' : (f.name == "__init__") = false := by simpa using hi
      rw [List.foldlM_cons, funcStep_genfail backend ov st f hi' (hb _), except_bind_ok]
      obtain ⟨lf, lg, hrec⟩ := ih
        { source := st.source,
          lastFn := some { f with docstring := some "", is_docstring_generated := false },
          genLog := st.genLog ++ [f] }
      exact ⟨lf, lg, hrec⟩

theorem classFold_allfail (backend : Backend) (ov : Bool)
    (lf : Option ExtractedFunction) (hb : ∀ p, backend p = none) :
    ∀ (cs : List ExtractedClass) (src : Source),
      List.foldlM (classStep backend ov lf) src cs = .ok src := by
  intro cs
  induction cs with
  | nil => intro src; rfl
  | cons c rest ih =>
    intro src
    rw [List.foldlM_cons, classStep_genfail backend ov lf src c (hb _), except_bind_ok]
    exact ih src

theorem process_file_valid_eq (backend : Backend) (ov : Bool) (m : Module) :
    process_file backend ov (.valid m) =
      match List.foldlM (funcStep backend ov) { source := .valid m } (extract_m m).1 with
      | .error e => .error e
      | .ok st => List.foldlM (classStep backend ov st.lastFn) st.source (extract_m m).2 := rfl

theorem process_file_allfail (backend : Backend) (ov : Bool) (m : Module)
    (hb : ∀ p, backend p = none) :
    process_file backend ov (.valid m) = .ok (.valid m) := by
  obtain ⟨lf, lg, hf⟩ := funcFold_allfail backend ov hb (extract_m m).1
    { source := .valid m }
  rw [process_file_valid_eq, hf]
  exact classFold_allfail backend ov lf hb (extract_m m).2 (.valid m)

theorem funcFold_log (backend : Backend) (ov : Bool) :
    ∀ (fs : List ExtractedFunction) (st res : FuncPassState),
      List.foldlM (funcStep backend ov) st fs = .ok res →
      ∀ r ∈ res.genLog, r ∈ st.genLog ∨ (r.name == "__init__") = false := by
  intro fs
  induction fs with
  | nil =>
    intro st res h r hr
    have : st = res := Except.ok.inj h
    subst this
    exact Or.inl hr
  | cons f rest ih =>
    intro st res h r hr
    rw [List.foldlM_cons] at h
    by_cases hi : (f.name == "__init__") = true
    · rw [funcStep_init backend ov st f hi, except_bind_ok] at h
      exact ih _ res h r hr
    · have hi' : (f.name == "__init__") = false := by simpa using hi
      cases hstep : funcStep backend ov st f with
      | error e => rw [hstep, except_bind_err] at h; exact absurd h (by simp)
      | ok st' =>
        rw [hstep, except_bind_ok] at h
        have hlog := funcStep_genLog backend ov st f st' hi' hstep
        rcases ih _ res h r hr with hmem | hni
        · rw [hlog] at hmem
          rcases List.mem_append.mp hmem with h1 | h1
          · exact Or.inl h1
          · have : r = f := by simpa using h1
            subst this
            exact Or.inr hi'
        · exact Or.inr hni

/-! ## Claim theorems -/

set_option maxRecDepth 8000

/-- C1: the class splice decision does not follow the claim.  Under a
backend that fails for the function `f` and succeeds with the non-empty
summary `"cdoc"` for the class `C`, the synthesis for the class record
succeeds and the class's own generated summary is non-empty, yet
`process_file` performs no splice: the final source equals the input.
The guard evaluates `len(function.docstring)` on the function loop's
last record (here `""`, from the failed call for `f`) instead of the
class's own summary, so the decision depends on another record's fields.
The last two conjuncts show that the splice, had the driver performed it
as claimed, would have changed the source. -/
theorem c1_class_guard_reads_previous_function_docstring :
    generate_docstring backendC1 (serStmt exC) "class" = ("cdoc", true) ∧
    process_file backendC1 false (.valid exM1) = .ok (.valid exM1) ∧
    insert_docstring (.valid exM1) "C" "cdoc" false = .ok (.valid exM1C) ∧
    Source.valid exM1C ≠ Source.valid exM1 :=
  ⟨rfl, rfl, rfl, fun h => absurd (congrArg srcRepr h) (by decide)⟩

/-- C10: processing a file of class definitions without (synthesized)
function records crashes.  With a backend that always succeeds, a file
containing only a class raises `NameError` (the class pass guard reads
the never-bound loop variable `function`), and a file whose only
function definition is an `__init__` without an existing docstring
raises `TypeError` (`len(None)`): processing does not complete without
an unhandled error. -/
theorem c10_class_only_file_crashes :
    process_file (fun _ => some "cdoc") false (.valid exMClassOnly) = .error .nameError ∧
    process_file (fun _ => some "cdoc") false (.valid exMInitOnly) = .error .typeError :=
  ⟨rfl, rfl⟩

/-- C3: the pipeline is not idempotent.  Fix the synthesis results:
`f ↦ ("fdoc", success)` and `C ↦ ("", success)` (a successful backend
call may return the empty string).  The first run documents `f` and —
because the class guard consults `f`'s docstring instead of `C`'s own
empty summary — splices the empty docstring into `C`.  The second run,
with the same fixed results and `overwrite=false`, does not skip `C`
(its docstring cleans to the empty string), does not delete the old
empty docstring (`delete_docstring` pops only a truthy docstring), and
prepends a second empty docstring: running twice differs from running
once. -/
theorem c3_pipeline_not_idempotent :
    process_file backendC3 false (.valid exM1) = .ok (.valid exS1) ∧
    process_file backendC3 false (.valid exS1) = .ok (.valid exS2) ∧
    Source.valid exS2 ≠ Source.valid exS1 :=
  ⟨rfl, rfl, fun h => absurd (congrArg srcRepr h) (by decide)⟩

/-- C7, counterexample: a batch does not continue after a parse error.
The run over two files whose first is syntactically invalid stops with
the `SyntaxError`: no output is produced for the second (valid) file,
refuting the claim that the batch continues with the remaining files. -/
theorem c7_counterexample :
    batch_run (fun _ => none) false [Source.invalid, Source.valid exM1] =
      ([], some .parseError) := rfl

/-- C7, amended: for every syntactically invalid source text, extraction
fails with the parse error and produces no records (first conjunct), and
the error propagates out of `process_file` (second conjunct) and aborts
the entire batch run: whatever files follow the invalid one, they are
not processed (third conjunct). -/
theorem c7_parse_error_aborts_batch (backend : Backend) (ov : Bool) (rest : List Source) :
    extract .invalid = .error .parseError ∧
    process_file backend ov .invalid = .error .parseError ∧
    batch_run backend ov (.invalid :: rest) = ([], some .parseError) :=
  ⟨rfl, rfl, rfl⟩

/-- C2, counterexample: the skip is not a no-op on the whole text.  In a
file with two functions named `f` whose first carries the non-empty
docstring `"already documented"`, a splice with `overwrite=false` is
claimed to return the input unchanged; instead the loop `continue`s past
the skipped first match and inserts the docstring into the second `f`. -/
theorem c2_skip_is_not_noop :
    get_docstring exFdup1 = some "already documented" ∧
    getAt exMdup [0] = some exFdup1 ∧
    insert_docstring (.valid exMdup) "f" "newdoc" false = .ok (.valid exMdup') ∧
    Source.valid exMdup' ≠ Source.valid exMdup :=
  ⟨rfl, rfl, rfl, fun h => absurd (congrArg srcRepr h) (by decide)⟩

/-- C2, amended: the no-op guarantee holds once EVERY definition whose
name matches the record carries a non-empty existing docstring: with
`overwrite=false` the call returns the input source unchanged and no
definition is modified.  (`skipCond s false = true` says exactly that
`s` carries an existing docstring whose cleaned text is non-empty with
non-whitespace content.) -/
theorem c2_noop_when_all_matches_documented (m : Module) (name doc : String)
    (hall : ∀ s ∈ allNodesL m, nameMatch s name = true → skipCond s false = true) :
    insert_docstring (.valid m) name doc false = .ok (.valid m) := by
  have h := findTarget_none_of_all_skip m name false hall
  show Except.ok (to_source (insert_docstring_m m name doc false)) = .ok (.valid m)
  rw [insert_docstring_m_of_none m name doc false h]
  rfl

/-- C2, witness: on a file with a single documented `f`, the splice call
is a no-op. -/
theorem c2_witness :
    insert_docstring (.valid exMSingle) "f" "irrelevant" false = .ok (.valid exMSingle) :=
  c2_noop_when_all_matches_documented exMSingle "f" "irrelevant" (by decide)

/-- C4, counterexample: with two same-kind, same-named definitions the
splice does not only target the first in traversal order.  The first
match (`exFdup1`, at path `[0]`) is skipped because it is documented,
and the definition AFTER it (path `[1]`) has the docstring inserted. -/
theorem c4_later_match_spliced :
    nameMatch exFdup1 "f" = true ∧
    nameMatch exFdup2 "f" = true ∧
    Stmt.isFuncDef exFdup1 = true ∧
    Stmt.isFuncDef exFdup2 = true ∧
    insert_docstring_m exMdup "f" "newdoc" false = exMdup' ∧
    getAt exMdup' [1] = some exFdup2' :=
  ⟨rfl, rfl, rfl, rfl, rfl, rfl⟩

/-- C4, amended: a single splice call edits at most one definition: the
first match in traversal order that is NOT skipped by the
existing-docstring guard (with `overwrite=true` this is the first match,
as claimed; with `overwrite=false` every documented match before it is
passed over, as the counterexample shows).  Part two: the targeted
entry is a real tree position, it satisfies the match-and-not-skip test,
every walk entry before it fails that test, every subtree at a path
incomparable with the target's is untouched, and the target itself
becomes its spliced version. -/
theorem c4_first_unskipped_match_only (m : Module) (name doc : String) (ov : Bool) :
    (findTarget m name ov = none → insert_docstring_m m name doc ov = m) ∧
    (∀ p s, findTarget m name ov = some (p, s) →
      getAt m p = some s ∧
      (nameMatch s name && !skipCond s ov) = true ∧
      (∃ l1 l2, walkEntries m = l1 ++ (p, s) :: l2 ∧
        ∀ e ∈ l1, (nameMatch e.2 name && !skipCond e.2 ov) = false) ∧
      (∀ q, ¬ p <+: q → ¬ q <+: p →
        getAt (insert_docstring_m m name doc ov) q = getAt m q) ∧
      getAt (insert_docstring_m m name doc ov) p = some (spliceNode doc s)) := by
  constructor
  · exact insert_docstring_m_of_none m name doc ov
  · intro p s h
    rw [findTarget] at h
    obtain ⟨hacc, l1, l2, heq, hl1⟩ := find?_split _ (walkEntries m) (p, s) h
    have hmem : (p, s) ∈ walkEntries m := by
      rw [heq]
      exact List.mem_append_right _ (List.mem_cons_self _ _)
    have hval := walkEntries_valid m _ hmem
    have hins : insert_docstring_m m name doc ov = modifyAt (spliceNode doc) m p := by
      simp [insert_docstring_m, findTarget, h]
    refine ⟨hval.2, hacc, ⟨l1, l2, heq, hl1⟩, ?_, ?_⟩
    · intro q hpq hqp
      rw [hins]
      exact getAt_modifyAt_incomparable _ p m q hpq hqp
    · rw [hins]
      exact getAt_modifyAt_self _ p m s hval.2

/-- C4, witness: in the duplicate-name file the target is the second
`f`; the subtree at the incomparable path `[0]` is untouched. -/
theorem c4_witness :
    getAt (insert_docstring_m exMdup "f" "newdoc" false) [0] = getAt exMdup [0] :=
  ((c4_first_unskipped_match_only exMdup "f" "newdoc" false).2 [1] exFdup2 rfl).2.2.2.1
    [0] (by rintro ⟨t, ht⟩; simp at ht) (by rintro ⟨t, ht⟩; simp at ht)

/-- C8, counterexample: a previously existing first-statement docstring
is NOT always removed.  `exFEmptyDoc` carries the empty string literal
as its first-statement docstring; after the splice the generated summary
is inserted first but the old empty docstring remains as the second
statement, where the claim requires it removed. -/
theorem c8_empty_docstring_not_removed :
    get_docstring exFEmptyDoc = some "" ∧
    insert_docstring_m exMEmpty "f" "doc" false =
      .cons (.funcdefn "f" [] none
        (.cons (.exprStr "doc") (.cons (.exprStr "") (.cons (.other 0 .nil) .nil)))) .nil :=
  ⟨rfl, rfl⟩

/-- C8, amended: when the splice decides to insert, the targeted
definition's body begins with the generated summary, followed by
`delete_docstring` applied to the old body, which keeps the statements
in their original order and removes the old first-statement docstring
exactly when its cleaned text is non-empty: an empty (or
whitespace-only) existing docstring is retained, shifted one position
right; a definition without a docstring keeps its whole body. -/
theorem c8_splice_inserts_summary_first (m : Module) (name doc : String) (ov : Bool)
    (p : Path) (s : Stmt) (h : findTarget m name ov = some (p, s)) :
    getAt (insert_docstring_m m name doc ov) p =
      some (setChildren s (.cons (.exprStr doc) (delete_docstring_body (children s)))) ∧
    (∀ d t, children s = .cons (.exprStr d) t → cleandoc d ≠ "" →
      delete_docstring_body (children s) = t) ∧
    (∀ d t, children s = .cons (.exprStr d) t → cleandoc d = "" →
      delete_docstring_body (children s) = children s) ∧
    (get_docstring s = none → delete_docstring_body (children s) = children s) := by
  have hfind := h
  rw [findTarget] at hfind
  obtain ⟨hacc, l1, l2, heq, hl1⟩ := find?_split _ (walkEntries m) (p, s) hfind
  have hmem : (p, s) ∈ walkEntries m := by
    rw [heq]
    exact List.mem_append_right _ (List.mem_cons_self _ _)
  have hval := walkEntries_valid m _ hmem
  have hins : insert_docstring_m m name doc ov = modifyAt (spliceNode doc) m p := by
    simp [insert_docstring_m, findTarget, hfind]
  refine ⟨?_, ?_, ?_, ?_⟩
  · rw [hins]
    exact getAt_modifyAt_self _ p m s hval.2
  · intro d t hb hcd
    rw [hb]
    simp [delete_docstring_body, get_docstring_of, hcd]
  · intro d t hb hcd
    rw [hb]
    simp [delete_docstring_body, get_docstring_of, hcd]
  · intro hn
    rw [get_docstring] at hn
    simp [delete_docstring_body, hn]

/-- C8, witness: at the empty-docstring file, the spliced body starts
with the summary and the deletion keeps the (empty) old docstring. -/
theorem c8_witness :
    getAt (insert_docstring_m exMEmpty "f" "doc" false) [0] =
      some (setChildren exFEmptyDoc
        (.cons (.exprStr "doc") (delete_docstring_body (children exFEmptyDoc)))) ∧
    delete_docstring_body (children exFEmptyDoc) = children exFEmptyDoc := by
  have h := c8_splice_inserts_summary_first exMEmpty "f" "doc" false [0] exFEmptyDoc rfl
  exact ⟨h.1, h.2.2.1 "" (.cons (.other 0 .nil) .nil) rfl rfl⟩

/-- C5: extractor coverage.  For every parsed module: every function
definition at any nesting depth (any tree path) has its
`extract_function` record in the functions list; every functions-list
record comes from such a node; likewise every class definition yields
its `extract_class` record; and a class record's method list is exactly
the function definitions of the class's direct body (one nesting level),
in order, snapshot with `extract_function`. -/
theorem c5_extract_coverage (m : Module) (fs : List ExtractedFunction)
    (cs : List ExtractedClass) (h : extract (.valid m) = .ok (fs, cs)) :
    (∀ p s, getAt m p = some s → s.isFuncDef = true → extract_function s ∈ fs) ∧
    (∀ r ∈ fs, ∃ p s, getAt m p = some s ∧ s.isFuncDef = true ∧ r = extract_function s) ∧
    (∀ p s, getAt m p = some s → s.isClassDef = true → extract_class s ∈ cs) ∧
    (∀ c ∈ cs, ∃ p s, getAt m p = some s ∧ s.isClassDef = true ∧ c = extract_class s) ∧
    (∀ n b, (extract_class (.classdefn n b)).methods =
      (b.toList.filter Stmt.isFuncDef).map extract_function) := by
  have h0 : (Except.ok (extract_m m) : Except PyError _) = .ok (fs, cs) := h
  have h1 : extract_m m = (fs, cs) := Except.ok.inj h0
  have hfs : fs = ((walkStmts m).filter Stmt.isFuncDef).map extract_function := by
    have := congrArg Prod.fst (extract_m_eq m)
    rw [h1] at this
    simpa using this
  have hcs : cs = ((walkStmts m).filter Stmt.isClassDef).map extract_class := by
    have := congrArg Prod.snd (extract_m_eq m)
    rw [h1] at this
    simpa using this
  refine ⟨?_, ?_, ?_, ?_, ?_⟩
  · intro p s hget hfd
    have hw := walkEntries_complete m p s hget
    have hs : s ∈ walkStmts m := by
      rw [walkStmts]
      exact List.mem_map.mpr ⟨(p, s), hw, rfl⟩
    rw [hfs]
    exact List.mem_map_of_mem _ (List.mem_filter.mpr ⟨hs, hfd⟩)
  · intro r hr
    rw [hfs] at hr
    obtain ⟨s, hsf, rfl⟩ := List.mem_map.mp hr
    obtain ⟨hs, hfd⟩ := List.mem_filter.mp hsf
    rw [walkStmts] at hs
    obtain ⟨⟨p, s'⟩, hmem, hpr⟩ := List.mem_map.mp hs
    have hval := walkEntries_valid m _ hmem
    refine ⟨p, s, ?_, hfd, rfl⟩
    rw [show s = s' from hpr.symm]
    exact hval.2
  · intro p s hget hcd
    have hw := walkEntries_complete m p s hget
    have hs : s ∈ walkStmts m := by
      rw [walkStmts]
      exact List.mem_map.mpr ⟨(p, s), hw, rfl⟩
    rw [hcs]
    exact List.mem_map_of_mem _ (List.mem_filter.mpr ⟨hs, hcd⟩)
  · intro c hc
    rw [hcs] at hc
    obtain ⟨s, hsf, rfl⟩ := List.mem_map.mp hc
    obtain ⟨hs, hcd⟩ := List.mem_filter.mp hsf
    rw [walkStmts] at hs
    obtain ⟨⟨p, s'⟩, hmem, hpr⟩ := List.mem_map.mp hs
    have hval := walkEntries_valid m _ hmem
    refine ⟨p, s, ?_, hcd, rfl⟩
    rw [show s = s' from hpr.symm]
    exact hval.2
  · intro n b
    simp [extract_class, methodsOf_eq]

/-- C5, witness: in the constructor-only file, the nested `__init__`
(at depth two) is recorded as a function, `D` as a class. -/
theorem c5_witness :
    extract_function exInit ∈ (extract_m exMInitOnly).1 ∧
    extract_class exCInit ∈ (extract_m exMInitOnly).2 := by
  have h := c5_extract_coverage exMInitOnly (extract_m exMInitOnly).1
    (extract_m exMInitOnly).2 rfl
  exact ⟨h.1 [0, 0] exInit rfl rfl, h.2.2.1 [0] exCInit rfl rfl⟩

/-- C6: failure isolation.  (1) When the backend call fails,
`generate_docstring` returns `("", false)` instead of propagating.
(2) A function-pass step whose backend call fails leaves the running
source unchanged and returns normally, so the fold continues with every
remaining record.  (3) Likewise for a class-pass step (generation
failure short-circuits the guard, so no splice and no error).  (4) With
a backend that fails for every prompt, the whole driver still processes
the file to completion and returns the unchanged source. -/
theorem c6_failure_isolation :
    (∀ (backend : Backend) (code ot : String), backend (prompt_for ot code) = none →
      generate_docstring backend code ot = ("", false)) ∧
    (∀ (backend : Backend) (ov : Bool) (st : FuncPassState) (f : ExtractedFunction),
      (f.name == "__init__") = false → backend (prompt_for "function" f.code) = none →
      funcStep backend ov st f =
        .ok { source := st.source,
              lastFn := some { f with docstring := some "", is_docstring_generated := false },
              genLog := st.genLog ++ [f] }) ∧
    (∀ (backend : Backend) (ov : Bool) (lf : Option ExtractedFunction) (src : Source)
        (c : ExtractedClass), backend (prompt_for "class" c.code) = none →
      classStep backend ov lf src c = .ok src) ∧
    (∀ (backend : Backend) (ov : Bool) (m : Module), (∀ pr, backend pr = none) →
      process_file backend ov (.valid m) = .ok (.valid m)) :=
  ⟨generate_docstring_fail, funcStep_genfail, classStep_genfail, process_file_allfail⟩

/-- C6, witness: with an always-failing backend, synthesis yields
`("", false)` and the driver completes the two-definition file with the
source unchanged. -/
theorem c6_witness :
    generate_docstring (fun _ => none) "def g(): pass" "function" = ("", false) ∧
    process_file (fun _ => none) false (.valid exM1) = .ok (.valid exM1) :=
  ⟨c6_failure_isolation.1 (fun _ => none) "def g(): pass" "function" rfl,
   c6_failure_isolation.2.2.2 (fun _ => none) false exM1 (fun _ => rfl)⟩

/-- C9: constructor exclusion.  (1) A function record named `__init__`
is skipped by `continue`: the step neither calls the backend (the ghost
log of synthesized records is unchanged) nor splices (the source is
unchanged); only the loop variable is rebound.  (2) Every record the
function pass ever hands to `generate_docstring` (the ghost log) is
either pre-existing in the initial state or not named `__init__`. -/
theorem c9_constructor_exclusion :
    (∀ (backend : Backend) (ov : Bool) (st : FuncPassState) (f : ExtractedFunction),
      (f.name == "__init__") = true →
      funcStep backend ov st f = .ok { st with lastFn := some f }) ∧
    (∀ (backend : Backend) (ov : Bool) (fs : List ExtractedFunction)
        (st res : FuncPassState),
      List.foldlM (funcStep backend ov) st fs = .ok res →
      ∀ r ∈ res.genLog, r ∈ st.genLog ∨ (r.name == "__init__") = false) :=
  ⟨funcStep_init, funcFold_log⟩

/-- C9, witness: the `__init__` record of the constructor-only file is
skipped with source and log untouched; a one-record fold over a
non-constructor `f` logs only `f`, which is not a constructor. -/
theorem c9_witness :
    funcStep (fun _ => none) false { source := Source.valid exMInitOnly }
        (extract_function exInit) =
      .ok { source := Source.valid exMInitOnly,
            lastFn := some (extract_function exInit), genLog := [] } ∧
    (extract_function exF ∈ ([] : List ExtractedFunction) ∨
      ((extract_function exF).name == "__init__") = false) :=
  ⟨c9_constructor_exclusion.1 (fun _ => none) false
      { source := Source.valid exMInitOnly } (extract_function exInit) rfl,
   c9_constructor_exclusion.2 (fun _ => none) false [extract_function exF]
      { source := Source.valid exM1 }
      { source := Source.valid exM1,
        lastFn := some { extract_function exF with
          docstring := some "", is_docstring_generated := false },
        genLog := [extract_function exF] }
      rfl (extract_function exF) (by simp)⟩

/-- C7, amended-claim witness: a concrete batch starting with an invalid
file stops at once with the parse error. -/
theorem c7_witness :
    batch_run (fun _ => some "d") true (Source.invalid :: [Source.valid exMClassOnly]) =
      ([], some .parseError) :=
  (c7_parse_error_aborts_batch (fun _ => some "d") true [Source.valid exMClassOnly]).2.2
end AIDocGen
